import Mathlib

/-!
Verification of the tsundoku core against its specification.

Strings are modelled as lists of characters (`Str`).  Rust `HashMap`s are
modelled as association lists whose list order stands for the map's
iteration order (which for `std::collections::HashMap` is arbitrary).
Byte lengths (`str::len`) are modelled by summing `Char.utf8Size`.
-/

namespace Tsundoku

abbrev Str := List Char

/-- UTF-8 byte length of a string, Rust `str::len`. -/
def utf8Len (s : Str) : Nat := (s.map Char.utf8Size).sum

/-- Unicode `White_Space` test, Rust `char::is_whitespace` and the regex
class `\s` (the `regex` crate with Unicode enabled). -/
def uniWs (c : Char) : Bool :=
  let n := c.toNat
  n = 0x09 || n = 0x0A || n = 0x0B || n = 0x0C || n = 0x0D || n = 0x20 ||
  n = 0x85 || n = 0xA0 || n = 0x1680 || (0x2000 ≤ n && n ≤ 0x200A) ||
  n = 0x2028 || n = 0x2029 || n = 0x202F || n = 0x205F || n = 0x3000

/-- Character class of `BAD_ORIGINAL_REGEX` in `name_mapping.rs`:
whitespace, Japanese separators and punctuation. -/
def badOriginalChar (c : Char) : Bool :=
  uniWs c ||
  ("・･｡､,，。／/：:;!！?？—–‑·（）()［\x7b\x7d＜＞<>『』「」〈〉【】".data.contains c) ||
  c = '-' || c = ']'

/-- Whether an original name matches `BAD_ORIGINAL_REGEX` (the regex is an
unanchored single-character class, so it matches iff some character of the
string is in the class). -/
def isBadOriginal (s : Str) : Bool := s.any badOriginalChar

/-- Alternatives of `HONORIFIC_SUFFIX_REGEX`, anchored at the end. -/
def honorificSuffixes : List Str :=
  ["さん".data, "ちゃん".data, "くん".data, "君".data, "様".data, "さま".data,
   "殿".data, "氏".data, "先生".data, "先輩".data, "嬢".data]

/-- Whether an original matches `HONORIFIC_SUFFIX_REGEX` (one of the
honorific alternatives as a suffix). -/
def hasHonorificSuffix (s : Str) : Bool :=
  honorificSuffixes.any (fun h => h.isSuffixOf s)

/-- The `ORIGINAL_NAME_DENYLIST` constant. -/
def originalNameDenylist : List Str :=
  ["彼".data, "彼女".data, "あいつ".data, "こいつ".data, "そいつ".data,
   "こちとら".data, "こちら".data, "自分".data, "私".data, "わたし".data,
   "わたくし".data, "俺".data, "おれ".data, "僕".data, "ぼく".data,
   "うち".data, "あなた".data, "君".data, "きみ".data, "お前".data,
   "おまえ".data, "貴様".data, "彼ら".data, "彼女ら".data, "俺たち".data,
   "僕ら".data, "私たち".data, "あなたたち".data, "皆".data, "みんな".data]

/-- The `ENGLISH_HONORIFICS` constant. -/
def englishHonorifics : List Str :=
  ["-san".data, "-chan".data, "-kun".data, "-sama".data,
   " san".data, " chan".data, " kun".data, " sama".data]

/-- Substring containment, Rust `str::contains` with a literal pattern. -/
def containsSub (pat : Str) : Str → Bool
  | [] => pat.isEmpty
  | s@(_ :: t) => pat.isPrefixOf s || containsSub pat t

/-- Whether the lowercased english rendering contains one of the english
honorific patterns (`english_lower.contains(h)`); `to_lowercase` is
modelled per character, which is exact on the ASCII patterns involved. -/
def hasEnglishHonorific (s : Str) : Bool :=
  englishHonorifics.any (fun h => containsSub h (s.map Char.toLower))

/-- The `NamePart` enum. -/
inductive NamePart where
  | family
  | given
  | unknown
deriving DecidableEq

/-- The `NameEntry` struct. -/
structure NameEntry where
  original : Str
  english : Str
  part : NamePart
deriving DecidableEq

/-- The `NameInfo` struct.  `votes` is the `HashMap<String, u32>` as an
association list in iteration order. -/
structure NameInfo where
  part : NamePart
  votes : List (Str × Nat)
  english : Option Str
  count : Option Nat
deriving DecidableEq

/-- `NameInfo::new`. -/
def NameInfo.new (part : NamePart) : NameInfo := ⟨part, [], none, none⟩

/-- Loop of `NameInfo::recalculate_best`: `cur` is `self.english` (read but
never written inside the loop), `be`/`bc` are `best_english`/`best_count`.
The tie disjunct of the outer condition is kept exactly as in the source;
its body only assigns when `count > best_count`. -/
def recalcLoop (cur : Option Str) : List (Str × Nat) → Option Str → Nat → Option Str × Nat
  | [], be, bc => (be, bc)
  | (eng, c) :: rest, be, bc =>
    if c > bc ∨ (c = bc ∧ cur ≠ some eng) then
      if c > bc then recalcLoop cur rest (some eng) c
      else recalcLoop cur rest be bc
    else
      recalcLoop cur rest be bc

/-- `NameInfo::recalculate_best`. -/
def NameInfo.recalculate_best (i : NameInfo) : NameInfo :=
  if i.votes = [] then { i with english := none, count := none }
  else
    match recalcLoop i.english i.votes none 0 with
    | (some eng, bc) => { i with english := some eng, count := some bc }
    | (none, _) =>
      match i.english with
      | some cur =>
        match List.lookup cur i.votes with
        | some c => { i with count := some c }
        | none =>
          match i.votes with
          | (eng, c) :: _ => { i with english := some eng, count := some c }
          | [] => i
      | none => i

/-- The `NameMappingData` struct: `names` is the `HashMap<String, NameInfo>`
as an association list in iteration order, `coverage` the chapter list. -/
structure NameMappingData where
  names : List (Str × NameInfo)
  coverage : List Nat
deriving DecidableEq

/-- Entry rejection tests of `NameMappingStore::record_votes`, in source
order. -/
def NameEntry.rejected (e : NameEntry) : Bool :=
  e.original.isEmpty || e.english.isEmpty ||
  isBadOriginal e.original ||
  originalNameDenylist.contains e.original ||
  e.english.any uniWs ||
  hasHonorificSuffix e.original ||
  hasEnglishHonorific e.english

/-- `*name_info.votes.entry(english).or_insert(0) += 1`. -/
def voteInc (eng : Str) : List (Str × Nat) → List (Str × Nat)
  | [] => [(eng, 1)]
  | (k, c) :: rest => if k = eng then (k, c + 1) :: rest else (k, c) :: voteInc eng rest

/-- Mutation applied to a (fetched or fresh) `NameInfo` by `record_votes`:
part upgrade, vote increment, best recalculation. -/
def applyVote (e : NameEntry) (i : NameInfo) : NameInfo :=
  let i := if i.part = NamePart.unknown ∧ e.part ≠ NamePart.unknown then
             { i with part := e.part } else i
  let i := { i with votes := voteInc e.english i.votes }
  i.recalculate_best

/-- `self.data.names.entry(original).or_insert_with(new)` followed by the
vote mutation; a fresh key is appended at the end of the iteration order. -/
def updateNames (e : NameEntry) : List (Str × NameInfo) → List (Str × NameInfo)
  | [] => [(e.original, applyVote e (NameInfo.new e.part))]
  | (k, i) :: rest =>
    if k = e.original then (k, applyVote e i) :: rest
    else (k, i) :: updateNames e rest

/-- `NameMappingStore::record_votes`. -/
def NameMappingData.record_votes (d : NameMappingData) (entries : List NameEntry) : NameMappingData :=
  entries.foldl
    (fun d e => if e.rejected then d else { d with names := updateNames e d.names })
    d

/-- Vote retention test of `purge_bad_votes` (`info.votes.retain`): reject
english with whitespace or an english honorific. -/
def validVote (eng : Str) : Bool :=
  !(eng.any uniWs) && !(hasEnglishHonorific eng)

/-- Body of the `retain` closure of `NameMappingStore::purge_bad_votes` for
one map entry: `none` means the entry is dropped. -/
def purgeEntry (orig : Str) (i : NameInfo) : Option (Str × NameInfo) :=
  if isBadOriginal orig then none
  else if hasHonorificSuffix orig then none
  else if originalNameDenylist.contains orig then none
  else
    let i := ({ i with votes := i.votes.filter (fun v => validVote v.1) }).recalculate_best
    if i.votes = [] then none else some (orig, i)

/-- `NameMappingStore::purge_bad_votes`. -/
def NameMappingData.purge_bad_votes (d : NameMappingData) : NameMappingData :=
  { d with names := d.names.filterMap (fun p => purgeEntry p.1 p.2) }

/-- `NameMappingStore::is_chapter_covered`. -/
def NameMappingData.is_chapter_covered (d : NameMappingData) (n : Nat) : Bool :=
  d.coverage.contains n

/-- Insertion step of an ascending insertion sort on chapter numbers;
`sortNat` below models `sort_unstable` (on `Nat` any correct sort yields
the same list). -/
def insertAsc (x : Nat) : List Nat → List Nat
  | [] => [x]
  | y :: ys => if x ≤ y then x :: y :: ys else y :: insertAsc x ys

/-- Ascending sort, modelling `Vec::sort_unstable`. -/
def sortNat (l : List Nat) : List Nat := l.foldr insertAsc []

/-- `NameMappingStore::add_coverage`: the membership set is built once from
the coverage list before the push loop, then the list is sorted. -/
def NameMappingData.add_coverage (d : NameMappingData) (chapters : List Nat) : NameMappingData :=
  let covSet := d.coverage
  { d with coverage := sortNat (d.coverage ++ chapters.filter (fun ch => !(covSet.contains ch))) }

/-- Fueled core of Rust `str::replace` with a non-empty pattern: scan left
to right, replacing non-overlapping occurrences.  Fuel `s.length` always
suffices since each step consumes at least one character. -/
def replaceGo (pat rep : Str) : Nat → Str → Str
  | 0, s => s
  | _ + 1, [] => []
  | fuel + 1, s@(c :: rest) =>
    if pat.isPrefixOf s then rep ++ replaceGo pat rep fuel (s.drop pat.length)
    else c :: replaceGo pat rep fuel rest

/-- Rust `str::replace` with a literal pattern.  An empty pattern matches
at every character boundary. -/
def replaceAll (s pat rep : Str) : Str :=
  if pat = [] then rep ++ s.flatMap (fun c => c :: rep)
  else replaceGo pat rep s.length s

/-- The `(original, best)` pairs collected by `apply_to_text`, in map
iteration order, keeping only records with a best rendering. -/
def replacementsOf (d : NameMappingData) : List (Str × Str) :=
  d.names.filterMap (fun p => p.2.english.map (fun e => (p.1, e)))

/-- Insertion step of a stable insertion sort by descending UTF-8 byte
length of the original (`sort_by(|a, b| b.0.len().cmp(&a.0.len()))`). -/
def insertLenDesc (x : Str × Str) : List (Str × Str) → List (Str × Str)
  | [] => [x]
  | y :: ys => if utf8Len y.1 < utf8Len x.1 then x :: y :: ys else y :: insertLenDesc x ys

/-- Stable sort by descending byte length of the original. -/
def sortLenDesc (l : List (Str × Str)) : List (Str × Str) := l.foldr insertLenDesc []

/-- `NameMappingStore::apply_to_text`: sort replacements longest first and
apply `str::replace` for each pair in turn. -/
def NameMappingData.apply_to_text (d : NameMappingData) (text : Str) : Str :=
  (sortLenDesc (replacementsOf d)).foldl (fun acc p => replaceAll acc p.1 p.2) text

/-- `NameMappingStore::reload_from_disk`, with the file contents and the
serde parse abstracted as parameters: the result pairs the returned
`Result` with the store state after the call.  The state is only assigned
after a successful parse, then purged. -/
def reload_from_disk (parse : Str → Except Str NameMappingData)
    (store : NameMappingData) (content : Str) : Except Str Unit × NameMappingData :=
  match parse content with
  | .error e => (.error e, store)
  | .ok data => (.ok (), data.purge_bad_votes)

/-- Split on `'\n'`: `n` separators yield `n + 1` segments. -/
def splitNl : Str → List Str
  | [] => [[]]
  | c :: rest =>
    if c = '\n' then [] :: splitNl rest
    else
      match splitNl rest with
      | [] => [[c]]
      | s :: ss => (c :: s) :: ss

/-- Strip one trailing `'\r'`, as Rust `str::lines` does per line. -/
def stripCR (l : Str) : Str :=
  if l.getLast? = some '\r' then l.dropLast else l

/-- Rust `str::lines`: split on `'\n'`, drop a final empty segment (so a
trailing newline yields no extra line), strip one trailing `'\r'` per
line. -/
def rustLines (t : Str) : List Str :=
  let segs := splitNl t
  let segs := if segs.getLast? = some [] then segs.dropLast else segs
  segs.map stripCR

/-- Rust `Vec::join` with a one-character separator. -/
def joinWith (sep : Char) : List Str → Str
  | [] => []
  | [x] => x
  | x :: xs => x ++ sep :: joinWith sep xs

/-- The accumulation loop shared by the line pass of
`split_text_into_line_chunks` / `Translator::split_text_into_chunks`
(`sep = '\n'`) and the word pass of the latter (`sep = ' '`): `cur` is
`current_chunk`, `size` is `current_size`, `acc` the chunks pushed so
far.  Unit sizes are byte lengths, plus one for the separator when the
current chunk is non-empty. -/
def chunkLoop (sep : Char) (cs : Nat) : List Str → List Str → Nat → List Str → List Str
  | [], cur, _, acc => if cur = [] then acc else acc ++ [joinWith sep cur]
  | u :: rest, cur, size, acc =>
    if cs < size + (utf8Len u + (if cur = [] then 0 else 1)) ∧ cur ≠ [] then
      chunkLoop sep cs rest [u] (utf8Len u) (acc ++ [joinWith sep cur])
    else
      chunkLoop sep cs rest (cur ++ [u]) (size + (utf8Len u + (if cur = [] then 0 else 1))) acc

/-- `split_text_into_line_chunks` from `utils.rs` (identical to phase 1 of
`Translator::split_text_into_chunks`). -/
def split_text_into_line_chunks (t : Str) (cs : Nat) : List Str :=
  chunkLoop '\n' cs (rustLines t) [] 0 []

/-- Fueled Rust `str::split_whitespace`: skip whitespace, emit maximal
non-whitespace runs.  Fuel `s.length` always suffices. -/
def swF : Nat → Str → List Str
  | 0, _ => []
  | _ + 1, [] => []
  | fuel + 1, c :: rest =>
    if uniWs c then swF fuel rest
    else (c :: rest.takeWhile (fun x => !uniWs x)) :: swF fuel (rest.dropWhile (fun x => !uniWs x))

/-- Rust `str::split_whitespace` collected to a list. -/
def sw (s : Str) : List Str := swF s.length s

/-- `Translator::split_text_into_chunks`: line-based chunking, then a
whitespace-based second pass for each chunk still over the limit. -/
def split_text_into_chunks (cs : Nat) (t : Str) : List Str :=
  let chunks := chunkLoop '\n' cs (rustLines t) [] 0 []
  (chunks.map (fun ch =>
    if utf8Len ch ≤ cs then [ch]
    else chunkLoop ' ' cs (sw ch) [] 0 [])).flatten

/-- The `Message` struct of `translator.rs`. -/
structure Message where
  role : Str
  content : Str
deriving DecidableEq

/-- The system message built at the start of a translation. -/
def systemMessage (prompt : Str) : Message := ⟨"system".data, prompt⟩

/-- A user message. -/
def userMessage (content : Str) : Message := ⟨"user".data, content⟩

/-- An assistant message. -/
def assistantMessage (content : Str) : Message := ⟨"assistant".data, content⟩

/-- History trimming at the end of `translate_single_chunk`:
`max_messages = 1 + history_length * 2`; when exceeded,
`history.drain(1..1 + remove_count)` removes the oldest non-system
messages. -/
def trimHistory (n : Nat) (h : List Message) : List Message :=
  let maxMessages := 1 + n * 2
  if maxMessages < h.length then
    let removeCount := h.length - maxMessages
    h.take 1 ++ h.drop (1 + removeCount)
  else h

/-- History effect of one successful exchange in
`translate_single_chunk`: push the user and assistant messages, then
trim. -/
def pushExchange (n : Nat) (h : List Message) (e : Str × Str) : List Message :=
  trimHistory n (h ++ [userMessage e.1, assistantMessage e.2])

/-- Conversation history after a sequence of successful content-mode
exchanges, starting from the system message alone. -/
def contentHistory (prompt : Str) (n : Nat) (exs : List (Str × Str)) : List Message :=
  exs.foldl (pushExchange n) [systemMessage prompt]

/-- User/assistant message pairs of a list of exchanges, flattened in
order. -/
def exchangePairs : List (Str × Str) → List Message
  | [] => []
  | e :: rest => userMessage e.1 :: assistantMessage e.2 :: exchangePairs rest

/-- Last `n` elements of a list. -/
def lastN (n : Nat) (l : List α) : List α := l.drop (l.length - n)

/-- Error taxonomy of a failed chunk attempt (`TranslationError`). -/
inductive TranslationError where
  | apiError (msg : Str)
  | refused (msg : Str)
deriving DecidableEq

/-- Retry loop of `Translator::translate` for one chunk: attempts are
numbered from 0 and at most `retries` attempts run (`while attempt <
retries`); the first success wins. -/
def tryChunkGo (oracle : Nat → Except TranslationError Str) : Nat → Nat → Option Str
  | 0, _ => none
  | budget + 1, attempt =>
    match oracle attempt with
    | .ok s => some s
    | .error _ => tryChunkGo oracle budget (attempt + 1)

/-- Failure placeholder prefix (`format!("[TRANSLATION FAILED]\n{}", chunk)`). -/
def failureMark : Str := "[TRANSLATION FAILED]\n".data

/-- Contribution of one chunk to `results`: the first successful
translation, else — when at least one attempt ran and all failed — the
marked failure placeholder; with a zero retry budget nothing is pushed. -/
def chunkContrib (retries : Nat) (oracle : Nat → Except TranslationError Str) (chunk : Str) : Option Str :=
  match tryChunkGo oracle retries 0 with
  | some t => some t
  | none => if retries = 0 then none else some (failureMark ++ chunk)

/-- Rust `Vec::join` with a string separator. -/
def joinAll (sep : Str) : List Str → Str
  | [] => []
  | [x] => x
  | x :: xs => x ++ sep ++ joinAll sep xs

/-- Content-mode `Translator::translate` with the per-chunk LLM exchange
abstracted as an oracle from (chunk index, attempt number) to a result:
per-chunk contributions in order, joined with a blank line.  Content mode
returns `Ok` regardless of per-chunk failures, so the result is a plain
string. -/
def translateContent (retries : Nat) (oracle : Nat → Nat → Except TranslationError Str)
    (chunks : List Str) : Str :=
  joinAll "\n\n".data (chunks.enum.filterMap (fun p => chunkContrib retries (oracle p.1) p.2))

/-- Byte-based prefix of Rust `&text[..n]`: `some` iff `n` lands on a
character boundary (otherwise the Rust slice panics). -/
def byteSlicePrefix : Str → Nat → Option Str
  | _, 0 => some []
  | [], _ + 1 => none
  | c :: rest, n + 1 =>
    if c.utf8Size ≤ n + 1 then
      (byteSlicePrefix rest (n + 1 - c.utf8Size)).map (fun p => c :: p)
    else none

/-- Title-mode log snippet of `Translator::translate`:
`if text.len() > 30 { format!("{}...", &text[..30]) } else { text }`;
`none` models the byte-slice panic. -/
def titleSnippet (text : Str) : Option Str :=
  if 30 < utf8Len text then
    (byteSlicePrefix text 30).map (fun p => p ++ "...".data)
  else some text

end Tsundoku

namespace Tsundoku

/-! ### Helper lemmas: coverage sorting -/

theorem mem_insertAsc {x y : Nat} {l : List Nat} :
    y ∈ insertAsc x l ↔ y = x ∨ y ∈ l := by
  induction l with
  | nil => simp [insertAsc]
  | cons z zs ih =>
    simp only [insertAsc]
    split
    · simp [List.mem_cons]
    · simp only [List.mem_cons, ih]
      tauto

theorem insertAsc_perm (x : Nat) (l : List Nat) : List.Perm (insertAsc x l) (x :: l) := by
  induction l with
  | nil => exact List.Perm.refl _
  | cons z zs ih =>
    simp only [insertAsc]
    split
    · exact List.Perm.refl _
    · exact List.Perm.trans (List.Perm.cons z ih) (List.Perm.swap x z zs)

theorem sortNat_perm (l : List Nat) : List.Perm (sortNat l) l := by
  induction l with
  | nil => exact List.Perm.refl _
  | cons x xs ih =>
    exact List.Perm.trans (insertAsc_perm x (sortNat xs)) (ih.cons x)

theorem pairwise_insertAsc {x : Nat} {l : List Nat}
    (h : List.Pairwise (· ≤ ·) l) : List.Pairwise (· ≤ ·) (insertAsc x l) := by
  induction l with
  | nil => simp [insertAsc]
  | cons z zs ih =>
    simp only [insertAsc]
    split
    · rename_i hxz
      refine List.Pairwise.cons ?_ h
      intro y hy
      rcases List.mem_cons.mp hy with rfl | hy
      · exact hxz
      · exact Nat.le_trans hxz (List.rel_of_pairwise_cons h hy)
    · rename_i hxz
      refine List.Pairwise.cons ?_ (ih (List.Pairwise.of_cons h))
      intro y hy
      rcases mem_insertAsc.mp hy with rfl | hy
      · exact Nat.le_of_not_le hxz
      · exact List.rel_of_pairwise_cons h hy

theorem sortNat_sorted (l : List Nat) : List.Pairwise (· ≤ ·) (sortNat l) := by
  induction l with
  | nil => exact List.Pairwise.nil
  | cons x xs ih => exact pairwise_insertAsc ih

end Tsundoku
namespace Tsundoku

theorem contains_iff_mem {α : Type} [BEq α] [LawfulBEq α] {l : List α} {a : α} :
    l.contains a = true ↔ a ∈ l := List.elem_iff

/-! ### Helper lemmas: record_votes rejection -/

theorem record_votes_all_rejected (d : NameMappingData) (entries : List NameEntry)
    (h : ∀ e ∈ entries, e.rejected = true) :
    d.record_votes entries = d := by
  induction entries generalizing d with
  | nil => rfl
  | cons e rest ih =>
    have he : e.rejected = true := h e (List.mem_cons_self e rest)
    show List.foldl _ _ (e :: rest) = d
    simp only [List.foldl_cons, he, if_pos]
    exact ih d (fun e' he' => h e' (List.mem_cons_of_mem e he'))

end Tsundoku
namespace Tsundoku

/-- Claim C2 (code bug): a vote state with renderings `B` and `A` both at
one vote, current best `A` with count one (so the previous best's count
did not decrease), iterated in the order `B, A`, recalculates to best `B`:
the tie branch of the loop is dead code, so the previous best is NOT
retained on ties — the first max-count rendering in map iteration order
wins. -/
theorem c2_tie_not_retained :
    NameInfo.recalculate_best
        ⟨.unknown, [("B".data, 1), ("A".data, 1)], some "A".data, some 1⟩
      = ⟨.unknown, [("B".data, 1), ("A".data, 1)], some "B".data, some 1⟩ ∧
    some "B".data ≠ some "A".data := by
  constructor
  · decide
  · decide

/-- Claim C3: a batch made only of entries whose original has bad
characters, or is denylisted, or where a field carries an honorific (or
the english carries whitespace) leaves an empty store empty: every such
entry is silently dropped by `record_votes`. -/
theorem c3_record_votes_rejects_invalid (entries : List NameEntry) (cov : List Nat)
    (h : ∀ e ∈ entries,
      isBadOriginal e.original = true ∨
      originalNameDenylist.contains e.original = true ∨
      hasHonorificSuffix e.original = true ∨
      hasEnglishHonorific e.english = true ∨
      e.english.any uniWs = true) :
    NameMappingData.record_votes ⟨[], cov⟩ entries = ⟨[], cov⟩ := by
  refine record_votes_all_rejected _ _ (fun e he => ?_)
  rcases h e he with hb | hb | hb | hb | hb
  · simp [NameEntry.rejected, hb]
  · simp [NameEntry.rejected, contains_iff_mem.mp hb]
  · simp [NameEntry.rejected, hb]
  · simp [NameEntry.rejected, hb]
  · simp [NameEntry.rejected, hb]

theorem c3_witness :
    NameMappingData.record_votes ⟨[], []⟩
      [⟨"彼女".data, "Kanojo".data, .unknown⟩,
       ⟨"田中".data, "Tanaka-san".data, .unknown⟩,
       ⟨"田中さん".data, "Tanaka".data, .family⟩,
       ⟨"田中 太郎".data, "TanakaTaro".data, .unknown⟩,
       ⟨"優子".data, "Yu ko".data, .given⟩] = ⟨[], []⟩ :=
  c3_record_votes_rejects_invalid _ [] (by decide)

/-- Claim C5 (counterexample): the claim fails as stated — the membership
set is computed once before the insertion loop, so an input list that
repeats a chapter number not yet covered inserts it twice and the coverage
list ends up with duplicates. -/
theorem c5_counterexample :
    (NameMappingData.add_coverage ⟨[], []⟩ [2, 2]).coverage = [2, 2] ∧
    ¬ (NameMappingData.add_coverage ⟨[], []⟩ [2, 2]).coverage.Nodup := by
  constructor
  · decide
  · decide

/-- Claim C5 (amended): when the prior coverage list and the input list
are each duplicate-free, `add_coverage` inserts exactly the chapter
numbers not already present and leaves the coverage sorted ascending with
no duplicates, with `is_chapter_covered` answering membership in the
union. -/
theorem c5_add_coverage_sorted_nodup (d : NameMappingData) (chs : List Nat)
    (h1 : d.coverage.Nodup) (h2 : chs.Nodup) :
    List.Pairwise (· ≤ ·) (d.add_coverage chs).coverage ∧
    (d.add_coverage chs).coverage.Nodup ∧
    ∀ n, ((d.add_coverage chs).is_chapter_covered n = true ↔ (n ∈ d.coverage ∨ n ∈ chs)) := by
  have hperm := sortNat_perm (d.coverage ++ chs.filter (fun ch => !(d.coverage.contains ch)))
  refine ⟨sortNat_sorted _, ?_, ?_⟩
  · refine hperm.nodup_iff.mpr (List.nodup_append.mpr ⟨h1, h2.filter _, ?_⟩)
    intro x hx hx'
    have h3 : ¬ (x ∈ d.coverage) := by
      simpa [contains_iff_mem] using (List.mem_filter.mp hx').2
    exact h3 hx
  · intro n
    show (d.add_coverage chs).coverage.contains n = true ↔ _
    rw [contains_iff_mem]
    have hcov : (d.add_coverage chs).coverage
        = sortNat (d.coverage ++ chs.filter (fun ch => !(d.coverage.contains ch))) := rfl
    rw [hcov, hperm.mem_iff, List.mem_append]
    constructor
    · rintro (hn | hn)
      · exact Or.inl hn
      · exact Or.inr (List.mem_filter.mp hn).1
    · rintro (hn | hn)
      · exact Or.inl hn
      · by_cases hc : n ∈ d.coverage
        · exact Or.inl hc
        · refine Or.inr (List.mem_filter.mpr ⟨hn, ?_⟩)
          simp [contains_iff_mem, hc]

theorem c5_witness :
    List.Pairwise (· ≤ ·) ((⟨[], [1, 3, 5]⟩ : NameMappingData).add_coverage [1, 2]).coverage ∧
    ((⟨[], [1, 3, 5]⟩ : NameMappingData).add_coverage [1, 2]).coverage.Nodup ∧
    (((⟨[], [1, 3, 5]⟩ : NameMappingData).add_coverage [1, 2]).is_chapter_covered 2 = true ↔
      (2 ∈ [1, 3, 5] ∨ 2 ∈ [1, 2])) :=
  ⟨(c5_add_coverage_sorted_nodup ⟨[], [1, 3, 5]⟩ [1, 2] (by decide) (by decide)).1,
   (c5_add_coverage_sorted_nodup ⟨[], [1, 3, 5]⟩ [1, 2] (by decide) (by decide)).2.1,
   (c5_add_coverage_sorted_nodup ⟨[], [1, 3, 5]⟩ [1, 2] (by decide) (by decide)).2.2 2⟩

/-- Claim C8: when the file contents fail to parse, `reload_from_disk`
returns the parse error and the prior in-memory state is unchanged — the
store is only assigned after a successful parse. -/
theorem c8_reload_error_preserves_state (parse : Str → Except Str NameMappingData)
    (store : NameMappingData) (content : Str) (e : Str)
    (h : parse content = .error e) :
    reload_from_disk parse store content = (.error e, store) := by
  unfold reload_from_disk
  rw [h]

theorem c8_witness :
    reload_from_disk (fun _ => .error "bad".data)
        ⟨[(("田中".data : Str), NameInfo.new .family)], [1]⟩ "x".data
      = (.error "bad".data, ⟨[(("田中".data : Str), NameInfo.new .family)], [1]⟩) :=
  c8_reload_error_preserves_state _ _ _ _ rfl

/-- Claim C10 (code bug): in title mode, a title longer than 30 bytes
whose byte offset 30 falls inside a multi-byte character makes the log
snippet `&text[..30]` slice at a non-boundary — modelled as `none`, the
Rust code panics on such input instead of being well-defined. -/
theorem c10_title_snippet_panics :
    titleSnippet ('a' :: List.replicate 10 'あ') = none ∧
    30 < utf8Len ('a' :: List.replicate 10 'あ') := by
  constructor
  · decide
  · decide

end Tsundoku
namespace Tsundoku

/-! ### Helper lemmas: recalculate_best and purge_bad_votes -/

theorem recalcLoop_cur_irrel (v : List (Str × Nat)) :
    ∀ (cur cur' be : Option Str) (bc : Nat),
      recalcLoop cur v be bc = recalcLoop cur' v be bc := by
  induction v with
  | nil => intro cur cur' be bc; rfl
  | cons p rest ih =>
    intro cur cur' be bc
    obtain ⟨eng, c⟩ := p
    simp only [recalcLoop]
    by_cases hc : c > bc
    · rw [if_pos (Or.inl hc), if_pos (Or.inl hc), if_pos hc, if_pos hc]
      exact ih cur cur' (some eng) c
    · have hl : ∀ (cur0 : Option Str),
          (if c > bc ∨ (c = bc ∧ cur0 ≠ some eng) then
            if c > bc then recalcLoop cur0 rest (some eng) c else recalcLoop cur0 rest be bc
          else recalcLoop cur0 rest be bc) = recalcLoop cur0 rest be bc := by
        intro cur0
        by_cases h1 : c > bc ∨ (c = bc ∧ cur0 ≠ some eng)
        · rw [if_pos h1, if_neg hc]
        · rw [if_neg h1]
      rw [hl cur, hl cur']
      exact ih cur cur' be bc

theorem recalc_votes (i : NameInfo) : (i.recalculate_best).votes = i.votes := by
  unfold NameInfo.recalculate_best
  repeat' split
  all_goals rfl

theorem recalc_eq_of_empty (i : NameInfo) (hv : i.votes = []) :
    i.recalculate_best = { i with english := none, count := none } := by
  unfold NameInfo.recalculate_best
  rw [if_pos hv]

theorem recalc_eq_some (i : NameInfo) (eng : Str) (bc : Nat) (hv : ¬ i.votes = [])
    (hr : recalcLoop i.english i.votes none 0 = (some eng, bc)) :
    i.recalculate_best = { i with english := some eng, count := some bc } := by
  unfold NameInfo.recalculate_best
  simp only [if_neg hv, hr]

theorem recalc_eq_none_none (i : NameInfo) (bc : Nat) (hv : ¬ i.votes = [])
    (hr : recalcLoop i.english i.votes none 0 = (none, bc))
    (he : i.english = none) :
    i.recalculate_best = i := by
  unfold NameInfo.recalculate_best
  rw [he] at hr
  simp only [if_neg hv]
  simp only [he, hr]

theorem recalc_eq_none_keep (i : NameInfo) (cur : Str) (c bc : Nat) (hv : ¬ i.votes = [])
    (hr : recalcLoop i.english i.votes none 0 = (none, bc))
    (he : i.english = some cur) (hl : List.lookup cur i.votes = some c) :
    i.recalculate_best = { i with count := some c } := by
  unfold NameInfo.recalculate_best
  rw [he] at hr
  simp only [if_neg hv]
  simp only [he, hr, hl]

theorem recalc_eq_none_first (i : NameInfo) (cur : Str) (eng : Str) (c : Nat)
    (rest : List (Str × Nat)) (bc : Nat) (hv : ¬ i.votes = [])
    (hr : recalcLoop i.english i.votes none 0 = (none, bc))
    (he : i.english = some cur) (hl : List.lookup cur i.votes = none)
    (hvs : i.votes = (eng, c) :: rest) :
    i.recalculate_best = { i with english := some eng, count := some c } := by
  unfold NameInfo.recalculate_best
  rw [he] at hr
  rw [hvs] at hr hl
  simp only [if_neg hv]
  simp only [he, hvs, hr, hl]

theorem recalc_idem (i : NameInfo) :
    i.recalculate_best.recalculate_best = i.recalculate_best := by
  by_cases hv : i.votes = []
  · have h1 := recalc_eq_of_empty i hv
    have hv2 : (i.recalculate_best).votes = [] := by rw [recalc_votes]; exact hv
    have h2 := recalc_eq_of_empty _ hv2
    rw [h2, h1]
  · have hv2 : ¬ (i.recalculate_best).votes = [] := by rw [recalc_votes]; exact hv
    have hloop : recalcLoop (i.recalculate_best).english (i.recalculate_best).votes none 0
        = recalcLoop i.english i.votes none 0 := by
      rw [recalc_votes]
      exact recalcLoop_cur_irrel i.votes _ i.english none 0
    rcases hr : recalcLoop i.english i.votes none 0 with ⟨be, bc⟩
    cases be with
    | some eng =>
      have h1 := recalc_eq_some i eng bc hv hr
      have h2 := recalc_eq_some i.recalculate_best eng bc hv2 (by rw [hloop, hr])
      rw [h2, h1]
    | none =>
      cases he : i.english with
      | none =>
        have h1 := recalc_eq_none_none i bc hv hr he
        rw [h1]
        exact h1
      | some cur =>
        cases hl : List.lookup cur i.votes with
        | some c =>
          have h1 := recalc_eq_none_keep i cur c bc hv hr he hl
          have he2 : (i.recalculate_best).english = some cur := by rw [h1]; exact he
          have hl2 : List.lookup cur (i.recalculate_best).votes = some c := by
            rw [recalc_votes]; exact hl
          have h2 := recalc_eq_none_keep i.recalculate_best cur c bc hv2
            (by rw [hloop, hr]) he2 hl2
          rw [h2, h1]
        | none =>
          obtain ⟨⟨eng0, c0⟩, rest, hvs⟩ : ∃ p rest, i.votes = p :: rest := by
            cases hvv : i.votes with
            | nil => exact absurd hvv hv
            | cons p rest => exact ⟨p, rest, rfl⟩
          have h1 := recalc_eq_none_first i cur eng0 c0 rest bc hv hr he hl hvs
          have he2 : (i.recalculate_best).english = some eng0 := by rw [h1]
          have hl2 : List.lookup eng0 (i.recalculate_best).votes = some c0 := by
            rw [recalc_votes, hvs]
            simp [List.lookup]
          have h2 := recalc_eq_none_keep i.recalculate_best eng0 c0 bc hv2
            (by rw [hloop, hr]) he2 hl2
          rw [h2, h1]

end Tsundoku

namespace Tsundoku

theorem filter_idem {α : Type} (p : α → Bool) (l : List α) :
    (l.filter p).filter p = l.filter p := by
  induction l with
  | nil => rfl
  | cons x xs ih =>
    by_cases h : p x
    · simp [List.filter_cons, h, ih]
    · simp [List.filter_cons, h, ih]

theorem NameInfo.update_votes_self (j : NameInfo) (v : List (Str × Nat)) (hv : v = j.votes) :
    ({ j with votes := v }) = j := by
  cases j
  cases hv
  rfl

theorem purgeEntry_some {orig : Str} {i : NameInfo} {p : Str × NameInfo}
    (h : purgeEntry orig i = some p) :
    p.1 = orig ∧ purgeEntry orig p.2 = some p := by
  unfold purgeEntry at h
  simp only [] at h
  by_cases h1 : isBadOriginal orig = true
  · rw [if_pos h1] at h; cases h
  · rw [if_neg h1] at h
    by_cases h2 : hasHonorificSuffix orig = true
    · rw [if_pos h2] at h; cases h
    · rw [if_neg h2] at h
      by_cases h3 : originalNameDenylist.contains orig = true
      · rw [if_pos h3] at h; cases h
      · rw [if_neg h3] at h
        by_cases h4 :
            (({ i with votes := i.votes.filter (fun v => validVote v.1) }).recalculate_best).votes = []
        · rw [if_pos h4] at h; cases h
        · rw [if_neg h4] at h
          have hp := Option.some.inj h
          subst hp
          refine ⟨rfl, ?_⟩
          unfold purgeEntry
          simp only []
          rw [if_neg h1, if_neg h2, if_neg h3]
          have hjv : (({ i with votes := i.votes.filter (fun v => validVote v.1) }).recalculate_best).votes
              = i.votes.filter (fun v => validVote v.1) := recalc_votes _
          rw [NameInfo.update_votes_self _ _ (by rw [hjv, filter_idem])]
          rw [recalc_idem, if_neg h4]

end Tsundoku

namespace Tsundoku

theorem purge_filterMap_idem (l : List (Str × NameInfo)) :
    (l.filterMap (fun p => purgeEntry p.1 p.2)).filterMap (fun p => purgeEntry p.1 p.2)
      = l.filterMap (fun p => purgeEntry p.1 p.2) := by
  induction l with
  | nil => rfl
  | cons x xs ih =>
    cases h : purgeEntry x.1 x.2 with
    | none => simp only [List.filterMap_cons, h, ih]
    | some p =>
      obtain ⟨hp1, hp2⟩ := purgeEntry_some h
      have hpp : purgeEntry p.1 p.2 = some p := by rw [hp1]; exact hp2
      simp only [List.filterMap_cons, h, hpp, ih]

/-- Claim C4: `purge_bad_votes` is idempotent — running it twice in
succession yields exactly the same store state (names, votes, parts, best
renderings and counts, coverage) as running it once. -/
theorem c4_purge_bad_votes_idempotent (d : NameMappingData) :
    d.purge_bad_votes.purge_bad_votes = d.purge_bad_votes := by
  simp only [NameMappingData.purge_bad_votes]
  rw [purge_filterMap_idem]

end Tsundoku

namespace Tsundoku

/-! ### Helper lemmas: apply_to_text replacement order -/

theorem utf8Len_append (a b : Str) : utf8Len (a ++ b) = utf8Len a + utf8Len b := by
  simp [utf8Len]

theorem utf8Len_pos_of_ne_nil {l : Str} (h : l ≠ []) : 1 ≤ utf8Len l := by
  cases l with
  | nil => exact absurd rfl h
  | cons c t =>
    have := Char.utf8Size_pos c
    simp only [utf8Len, List.map_cons, List.sum_cons]
    omega

theorem containsSub_exists {pat s : Str} (h : containsSub pat s = true) :
    ∃ a b, s = a ++ pat ++ b := by
  induction s with
  | nil =>
    simp only [containsSub, List.isEmpty_iff] at h
    exact ⟨[], [], by simp [h]⟩
  | cons c t ih =>
    simp only [containsSub, Bool.or_eq_true] at h
    rcases h with h | h
    · obtain ⟨b, hb⟩ := List.isPrefixOf_iff_prefix.mp h
      exact ⟨[], b, by simp [hb]⟩
    · obtain ⟨a, b, hab⟩ := ih h
      exact ⟨c :: a, b, by simp [hab]⟩

theorem utf8Len_lt_of_strict_sub {p q : Str} (h : containsSub p q = true) (hne : p ≠ q) :
    utf8Len p < utf8Len q := by
  obtain ⟨a, b, hab⟩ := containsSub_exists h
  subst hab
  rcases List.eq_nil_or_concat a with rfl | ⟨_, _, ha⟩
  · have hb : b ≠ [] := by
      rintro rfl
      exact hne (by simp)
    have := utf8Len_pos_of_ne_nil hb
    rw [utf8Len_append, utf8Len_append]
    omega
  · have ha' : a ≠ [] := by
      rw [ha]; simp
    have := utf8Len_pos_of_ne_nil ha'
    rw [utf8Len_append, utf8Len_append]
    omega

theorem mem_insertLenDesc {x y : Str × Str} {l : List (Str × Str)} :
    y ∈ insertLenDesc x l ↔ y = x ∨ y ∈ l := by
  induction l with
  | nil => simp [insertLenDesc]
  | cons z zs ih =>
    simp only [insertLenDesc]
    split
    · simp [List.mem_cons]
    · simp only [List.mem_cons, ih]
      tauto

theorem pairwise_insertLenDesc {x : Str × Str} {l : List (Str × Str)}
    (h : List.Pairwise (fun p q => utf8Len q.1 ≤ utf8Len p.1) l) :
    List.Pairwise (fun p q => utf8Len q.1 ≤ utf8Len p.1) (insertLenDesc x l) := by
  induction l with
  | nil => simp [insertLenDesc]
  | cons z zs ih =>
    simp only [insertLenDesc]
    split
    · rename_i hzx
      refine List.Pairwise.cons ?_ h
      intro y hy
      rcases List.mem_cons.mp hy with rfl | hy
      · exact Nat.le_of_lt hzx
      · exact Nat.le_trans (List.rel_of_pairwise_cons h hy) (Nat.le_of_lt hzx)
    · rename_i hzx
      refine List.Pairwise.cons ?_ (ih (List.Pairwise.of_cons h))
      intro y hy
      rcases mem_insertLenDesc.mp hy with rfl | hy
      · exact Nat.le_of_not_lt hzx
      · exact List.rel_of_pairwise_cons h hy

theorem sortLenDesc_sorted (l : List (Str × Str)) :
    List.Pairwise (fun p q => utf8Len q.1 ≤ utf8Len p.1) (sortLenDesc l) := by
  induction l with
  | nil => exact List.Pairwise.nil
  | cons x xs ih => exact pairwise_insertLenDesc ih

/-- Claim C1 (amended): `apply_to_text` applies the recorded
`(original, best)` replacements sequentially in non-increasing order of
the original's byte length, so an original that is a strict substring of
another recorded original is always applied after it — and on the spec's
example (田中→Tanaka, 田→Ta) the text 田中さんと田さん becomes
TanakaさんとTaさん.  The universal claim fails because each step is a
plain sequential `str::replace`, so a later (shorter) original can
re-substitute inside the output of an earlier replacement (see the
counterexample). -/
theorem c1_longest_original_applied_first (d : NameMappingData) :
    List.Pairwise (fun p q => utf8Len q.1 ≤ utf8Len p.1) (sortLenDesc (replacementsOf d)) ∧
    List.Pairwise (fun p q : Str × Str => ¬ (containsSub p.1 q.1 = true ∧ p.1 ≠ q.1))
      (sortLenDesc (replacementsOf d)) ∧
    NameMappingData.apply_to_text
        (NameMappingData.record_votes ⟨[], []⟩
          [⟨"田中".data, "Tanaka".data, .family⟩, ⟨"田".data, "Ta".data, .unknown⟩])
        "田中さんと田さん".data = "TanakaさんとTaさん".data := by
  refine ⟨sortLenDesc_sorted _, ?_, by decide⟩
  refine (sortLenDesc_sorted (replacementsOf d)).imp ?_
  intro p q hle hcon
  exact absurd (utf8Len_lt_of_strict_sub hcon.1 hcon.2) (Nat.not_lt.mpr hle)

/-- Claim C1 (counterexample): with the valid recorded entries
`ab → b` and `b → X`, the text `ab` is rewritten to `X`, not to the best
rendering `b` of its recorded occurrence: the second replacement
re-substitutes inside the output of the first. -/
theorem c1_counterexample :
    NameMappingData.apply_to_text
        (NameMappingData.record_votes ⟨[], []⟩
          [⟨"ab".data, "b".data, .unknown⟩, ⟨"b".data, "X".data, .unknown⟩])
        "ab".data = "X".data ∧ ("X".data : Str) ≠ "b".data := by
  constructor
  · decide
  · decide

end Tsundoku


namespace Tsundoku

/-! ### Helper lemmas: conversation history bound -/

theorem exchangePairs_append (a b : List (Str × Str)) :
    exchangePairs (a ++ b) = exchangePairs a ++ exchangePairs b := by
  induction a with
  | nil => rfl
  | cons e rest ih => simp [exchangePairs, ih]

theorem exchangePairs_length (l : List (Str × Str)) :
    (exchangePairs l).length = 2 * l.length := by
  induction l with
  | nil => rfl
  | cons e rest ih =>
    simp only [exchangePairs, List.length_cons, ih]
    omega

theorem exchangePairs_drop_two (l : List (Str × Str)) :
    (exchangePairs l).drop 2 = exchangePairs l.tail := by
  cases l with
  | nil => rfl
  | cons e rest => rfl

theorem lastN_of_le {α : Type} {n : Nat} {l : List α} (h : l.length ≤ n) :
    lastN n l = l := by
  unfold lastN
  rw [Nat.sub_eq_zero_of_le h, List.drop_zero]

theorem lastN_length_le {α : Type} (n : Nat) (l : List α) : (lastN n l).length ≤ n := by
  unfold lastN
  rw [List.length_drop]
  omega

theorem lastN_append_lastN {α : Type} (n : Nat) (a b : List α) :
    lastN n (lastN n a ++ b) = lastN n (a ++ b) := by
  by_cases h : a.length ≤ n
  · rw [lastN_of_le h]
  · have hk : a.length - n ≤ a.length := Nat.sub_le _ _
    unfold lastN
    rw [List.length_append, List.length_append, List.length_drop]
    rw [show a.length - (a.length - n) + b.length - n = b.length by omega]
    rw [show a.length + b.length - n = (a.length - n) + b.length by omega]
    rw [← List.drop_drop, List.drop_append_of_le_length hk]

theorem trimHistory_small {n : Nat} {h : List Message} (hle : h.length ≤ 1 + n * 2) :
    trimHistory n h = h := by
  unfold trimHistory
  rw [if_neg (Nat.not_lt.mpr hle)]

theorem trimHistory_cons_drop {n : Nat} (m : Message) (t : List Message)
    (hgt : 1 + n * 2 < (m :: t).length) :
    trimHistory n (m :: t) = m :: t.drop ((m :: t).length - (1 + n * 2)) := by
  unfold trimHistory
  rw [if_pos hgt]
  simp only []
  rw [show 1 + ((m :: t).length - (1 + n * 2)) = ((m :: t).length - (1 + n * 2)) + 1 by omega]
  rw [List.drop_succ_cons]
  rfl

theorem pushExchange_inv (prompt : Str) (N : Nat) (q : List (Str × Str)) (hq : q.length ≤ N)
    (e : Str × Str) :
    pushExchange N (systemMessage prompt :: exchangePairs q) e
      = systemMessage prompt :: exchangePairs (lastN N (q ++ [e])) := by
  have hpush : systemMessage prompt :: exchangePairs q ++ [userMessage e.1, assistantMessage e.2]
      = systemMessage prompt :: exchangePairs (q ++ [e]) := by
    rw [exchangePairs_append]
    rfl
  have hplen : (exchangePairs (q ++ [e])).length = 2 * (q.length + 1) := by
    rw [exchangePairs_length, List.length_append]
    rfl
  show trimHistory N (systemMessage prompt :: exchangePairs q ++ [userMessage e.1, assistantMessage e.2])
      = _
  rw [hpush]
  by_cases hlt : q.length < N
  · rw [trimHistory_small (by simp only [List.length_cons, hplen]; omega)]
    rw [lastN_of_le (by simp only [List.length_append, List.length_cons, List.length_nil]; omega)]
  · have hqN : q.length = N := by omega
    rw [trimHistory_cons_drop _ _ (by simp only [List.length_cons, hplen]; omega)]
    have hidx : (systemMessage prompt :: exchangePairs (q ++ [e])).length - (1 + N * 2) = 2 := by
      simp only [List.length_cons, hplen]
      omega
    rw [hidx, exchangePairs_drop_two]
    have htail : (q ++ [e]).tail = lastN N (q ++ [e]) := by
      unfold lastN
      rw [show (q ++ [e]).length - N = 1 by
        simp only [List.length_append, List.length_cons, List.length_nil]; omega]
      rw [List.drop_one]
    rw [htail]

theorem contentHistory_inv (prompt : Str) (N : Nat) :
    ∀ (exs q : List (Str × Str)), q.length ≤ N →
      List.foldl (pushExchange N) (systemMessage prompt :: exchangePairs q) exs
        = systemMessage prompt :: exchangePairs (lastN N (q ++ exs)) := by
  intro exs
  induction exs with
  | nil =>
    intro q hq
    rw [List.foldl_nil, List.append_nil, lastN_of_le hq]
  | cons e rest ih =>
    intro q hq
    rw [List.foldl_cons, pushExchange_inv prompt N q hq e,
      ih _ (lastN_length_le N (q ++ [e]))]
    rw [lastN_append_lastN]
    rw [show q ++ [e] ++ rest = q ++ e :: rest by simp]

/-- Claim C6: after every sequence of successful content-mode exchanges
the history is exactly the system message followed by the user/assistant
pairs of the last `N` exchanges — hence it holds at most `1 + 2N`
messages, the system message stays at position zero, and the oldest pairs
are the ones evicted first. -/
theorem c6_history_bound_invariant (prompt : Str) (N : Nat) (exs : List (Str × Str)) :
    contentHistory prompt N exs = systemMessage prompt :: exchangePairs (lastN N exs) ∧
    (contentHistory prompt N exs).length ≤ 1 + N * 2 ∧
    (contentHistory prompt N exs).head? = some (systemMessage prompt) := by
  have h : contentHistory prompt N exs
      = systemMessage prompt :: exchangePairs (lastN N exs) := by
    have h0 := contentHistory_inv prompt N exs [] (by simp)
    rw [List.nil_append] at h0
    exact h0
  refine ⟨h, ?_, ?_⟩
  · rw [h]
    simp only [List.length_cons, exchangePairs_length]
    have := lastN_length_le N exs
    omega
  · rw [h]
    rfl

end Tsundoku

namespace Tsundoku

/-! ### Helper lemmas: per-chunk retry exhaustion -/

theorem tryChunkGo_none (oracle : Nat → Except TranslationError Str) :
    ∀ (budget attempt : Nat),
      (∀ k, attempt ≤ k → k < attempt + budget → ∀ s, oracle k ≠ .ok s) →
      tryChunkGo oracle budget attempt = none := by
  intro budget
  induction budget with
  | zero => intro attempt h; rfl
  | succ b ih =>
    intro attempt h
    simp only [tryChunkGo]
    cases ho : oracle attempt with
    | ok s => exact absurd ho (h attempt (Nat.le_refl _) (by omega) s)
    | error e =>
      exact ih (attempt + 1) (fun k h1 h2 s => h k (by omega) (by omega) s)

theorem chunkContrib_placeholder (retries : Nat) (oracle : Nat → Except TranslationError Str)
    (chunk : Str) (h1 : 1 ≤ retries) (h : ∀ k, k < retries → ∀ s, oracle k ≠ .ok s) :
    chunkContrib retries oracle chunk = some (failureMark ++ chunk) := by
  unfold chunkContrib
  rw [tryChunkGo_none oracle retries 0 (fun k hk1 hk2 s => h k (by omega) s)]
  rw [if_neg (by omega)]

theorem chunkContrib_isSome (retries : Nat) (oracle : Nat → Except TranslationError Str)
    (chunk : Str) (h1 : 1 ≤ retries) :
    (chunkContrib retries oracle chunk).isSome = true := by
  unfold chunkContrib
  cases ht : tryChunkGo oracle retries 0 with
  | some t => rfl
  | none =>
    show (if retries = 0 then none else some (failureMark ++ chunk)).isSome = true
    rw [if_neg (by omega)]
    rfl

theorem filterMap_length_of_isSome {α β : Type} (f : α → Option β) (l : List α)
    (h : ∀ a ∈ l, (f a).isSome = true) :
    (l.filterMap f).length = l.length := by
  induction l with
  | nil => rfl
  | cons x xs ih =>
    cases hf : f x with
    | none =>
      have := h x (List.mem_cons_self x xs)
      rw [hf] at this
      cases this
    | some b =>
      simp only [List.filterMap_cons, hf, List.length_cons]
      rw [ih (fun a ha => h a (List.mem_cons_of_mem x ha))]

/-- Claim C7: in content mode, when every retry attempt for chunk `i`
fails, that chunk's contribution is the marked failure placeholder
containing the original untranslated chunk; every chunk (failed or not)
contributes exactly one output in the original order, and the final
result joins the per-chunk outputs with a blank-line separator instead of
returning an error. -/
theorem c7_failed_chunk_placeholder (retries : Nat)
    (oracle : Nat → Nat → Except TranslationError Str) (chunks : List Str) (i : Nat)
    (h1 : 1 ≤ retries)
    (hfail : ∀ k, k < retries → ∀ s, oracle i k ≠ .ok s) :
    (∀ c, chunkContrib retries (oracle i) c = some (failureMark ++ c)) ∧
    (chunks.enum.filterMap (fun p => chunkContrib retries (oracle p.1) p.2)).length
      = chunks.length ∧
    translateContent retries oracle chunks
      = joinAll "\n\n".data
          (chunks.enum.filterMap (fun p => chunkContrib retries (oracle p.1) p.2)) := by
  refine ⟨fun c => chunkContrib_placeholder retries (oracle i) c h1 hfail, ?_, rfl⟩
  rw [filterMap_length_of_isSome _ _ (fun p hp => chunkContrib_isSome _ _ _ h1)]
  exact List.enum_length

theorem c7_witness :
    (chunkContrib 2
        ((fun i _ => if i = 0 then Except.error (TranslationError.apiError [])
                     else Except.ok "T".data) 0) "abc".data
       = some (failureMark ++ "abc".data)) ∧
    ((["abc".data, "def".data] : List Str).enum.filterMap
        (fun p => chunkContrib 2
          ((fun i _ => if i = 0 then Except.error (TranslationError.apiError [])
                       else Except.ok "T".data) p.1) p.2)).length = 2 ∧
    translateContent 2
        (fun i _ => if i = 0 then Except.error (TranslationError.apiError [])
                    else Except.ok "T".data)
        ["abc".data, "def".data]
      = joinAll "\n\n".data ((["abc".data, "def".data] : List Str).enum.filterMap
          (fun p => chunkContrib 2
            ((fun i _ => if i = 0 then Except.error (TranslationError.apiError [])
                         else Except.ok "T".data) p.1) p.2)) := by
  have h := c7_failed_chunk_placeholder 2
    (fun i _ => if i = 0 then Except.error (TranslationError.apiError [])
                else Except.ok "T".data)
    ["abc".data, "def".data] 0 (by decide)
    (by intro k hk s hs; simp at hs)
  exact ⟨h.1 "abc".data, h.2.1, h.2.2⟩

end Tsundoku

namespace Tsundoku

/-! ### Helper lemmas: split_whitespace -/

theorem swF_congr : ∀ (f1 : Nat) (s : Str) (f2 : Nat), s.length ≤ f1 → s.length ≤ f2 →
    swF f1 s = swF f2 s := by
  intro f1
  induction f1 with
  | zero =>
    intro s f2 h1 h2
    have hs : s = [] := List.eq_nil_of_length_eq_zero (Nat.le_zero.mp h1)
    subst hs
    cases f2 <;> rfl
  | succ f ih =>
    intro s f2 h1 h2
    cases s with
    | nil => cases f2 <;> rfl
    | cons c rest =>
      cases f2 with
      | zero => exact absurd h2 (by simp)
      | succ f2' =>
        simp only [swF]
        by_cases hc : uniWs c
        · rw [if_pos hc, if_pos hc]
          exact ih rest f2' (by simpa using h1) (by simpa using h2)
        · rw [if_neg hc, if_neg hc]
          congr 1
          exact ih _ f2'
            (Nat.le_trans ((List.dropWhile_sublist _).length_le) (by simpa using h1))
            (Nat.le_trans ((List.dropWhile_sublist _).length_le) (by simpa using h2))

theorem sw_nil : sw [] = [] := rfl

theorem sw_cons (c : Char) (rest : Str) :
    sw (c :: rest) = if uniWs c then sw rest
      else (c :: rest.takeWhile (fun x => !uniWs x))
        :: sw (rest.dropWhile (fun x => !uniWs x)) := by
  show swF (rest.length + 1) (c :: rest) = _
  simp only [swF]
  by_cases hc : uniWs c
  · rw [if_pos hc, if_pos hc]
    rfl
  · rw [if_neg hc, if_neg hc]
    congr 1
    exact swF_congr _ _ _ ((List.dropWhile_sublist _).length_le) (Nat.le_refl _)

theorem takeWhile_append_neg {p : Char → Bool} {c : Char} (hc : p c = false) (a b : Str) :
    (a ++ c :: b).takeWhile p = a.takeWhile p := by
  induction a with
  | nil => simp [List.takeWhile_cons, hc]
  | cons x a' ih =>
    by_cases hx : p x
    · simp [List.takeWhile_cons, hx, ih]
    · simp [List.takeWhile_cons, hx]

theorem dropWhile_append_neg {p : Char → Bool} {c : Char} (hc : p c = false) (a b : Str) :
    (a ++ c :: b).dropWhile p = a.dropWhile p ++ c :: b := by
  induction a with
  | nil => simp [List.dropWhile_cons, hc]
  | cons x a' ih =>
    by_cases hx : p x
    · simp [List.dropWhile_cons, hx, ih]
    · simp [List.dropWhile_cons, hx]

theorem sw_single {s : Str} (hne : s ≠ []) (hall : s.all (fun c => !uniWs c) = true) :
    sw s = [s] := by
  cases s with
  | nil => exact absurd rfl hne
  | cons c rest =>
    have hc : uniWs c = false := by
      have := (List.all_eq_true.mp hall) c (List.mem_cons_self c rest)
      simpa using this
    have hrest : ∀ x ∈ rest, (fun x => !uniWs x) x = true :=
      fun x hx => (List.all_eq_true.mp hall) x (List.mem_cons_of_mem c hx)
    rw [sw_cons, if_neg (by simp [hc])]
    rw [List.takeWhile_eq_self_iff.mpr hrest, List.dropWhile_eq_nil_iff.mpr hrest]
    rfl

end Tsundoku

namespace Tsundoku

theorem sw_append_ws {c : Char} (hc : uniWs c = true) :
    ∀ (n : Nat) (a b : Str), a.length ≤ n → sw (a ++ c :: b) = sw a ++ sw b := by
  intro n
  induction n with
  | zero =>
    intro a b h
    have ha : a = [] := List.eq_nil_of_length_eq_zero (Nat.le_zero.mp h)
    subst ha
    rw [List.nil_append, sw_cons, if_pos hc, sw_nil, List.nil_append]
  | succ n ih =>
    intro a b h
    cases a with
    | nil => rw [List.nil_append, sw_cons, if_pos hc, sw_nil, List.nil_append]
    | cons x a' =>
      have hcf : (fun y => !uniWs y) c = false := by simp [hc]
      rw [List.cons_append, sw_cons, sw_cons]
      by_cases hx : uniWs x
      · rw [if_pos hx, if_pos hx]
        exact ih a' b (by simpa using h)
      · rw [if_neg hx, if_neg hx]
        by_cases hall : ∀ y ∈ a', (fun y => !uniWs y) y = true
        · have ht : (a' ++ c :: b).takeWhile (fun y => !uniWs y) = a' := by
            rw [takeWhile_append_neg hcf, List.takeWhile_eq_self_iff.mpr hall]
          have hd : (a' ++ c :: b).dropWhile (fun y => !uniWs y) = c :: b := by
            rw [dropWhile_append_neg hcf, List.dropWhile_eq_nil_iff.mpr hall, List.nil_append]
          rw [ht, hd, List.takeWhile_eq_self_iff.mpr hall, List.dropWhile_eq_nil_iff.mpr hall]
          rw [sw_cons, if_pos hc, sw_nil]
          rfl
        · have ht : (a' ++ c :: b).takeWhile (fun y => !uniWs y)
              = a'.takeWhile (fun y => !uniWs y) := takeWhile_append_neg hcf a' b
          have hd : (a' ++ c :: b).dropWhile (fun y => !uniWs y)
              = a'.dropWhile (fun y => !uniWs y) ++ c :: b := dropWhile_append_neg hcf a' b
          rw [ht, hd]
          rw [ih (a'.dropWhile (fun y => !uniWs y)) b
            (Nat.le_trans ((List.dropWhile_sublist _).length_le) (by simpa using h))]
          rfl

theorem sw_mem : ∀ (n : Nat) (s : Str), s.length ≤ n →
    ∀ w ∈ sw s, w ≠ [] ∧ w.all (fun x => !uniWs x) = true := by
  intro n
  induction n with
  | zero =>
    intro s h w hw
    have hs : s = [] := List.eq_nil_of_length_eq_zero (Nat.le_zero.mp h)
    subst hs
    simp [sw_nil] at hw
  | succ n ih =>
    intro s h w hw
    cases s with
    | nil => simp [sw_nil] at hw
    | cons c rest =>
      rw [sw_cons] at hw
      by_cases hc : uniWs c
      · rw [if_pos hc] at hw
        exact ih rest (by simpa using h) w hw
      · have hc' : uniWs c = false := by simpa using hc
        rw [if_neg hc] at hw
        rcases List.mem_cons.mp hw with rfl | hw
        · refine ⟨by simp, ?_⟩
          simp only [List.all_eq_true]
          intro x hx
          rcases List.mem_cons.mp hx with rfl | hx
          · simp [hc']
          · have hpx := List.mem_takeWhile_imp hx
            simpa using hpx
        · exact ih _ (Nat.le_trans ((List.dropWhile_sublist _).length_le) (by simpa using h)) w hw

end Tsundoku

namespace Tsundoku

theorem flatten_map_singleton (l : List Str) : (l.map (fun w => [w])).flatten = l := by
  induction l with
  | nil => rfl
  | cons x xs ih => simp [ih]

theorem sw_joinWith {sep : Char} (hsep : uniWs sep = true) :
    ∀ gs : List Str, sw (joinWith sep gs) = (gs.map sw).flatten := by
  intro gs
  induction gs with
  | nil => simp [joinWith, sw_nil]
  | cons g gs' ih =>
    cases gs' with
    | nil => simp [joinWith]
    | cons g2 rest =>
      show sw (g ++ sep :: joinWith sep (g2 :: rest)) = _
      rw [sw_append_ws hsep g.length g _ (Nat.le_refl _), ih]
      simp

theorem sw_joinWith_words {ws : List Str}
    (h : ∀ w ∈ ws, w ≠ [] ∧ w.all (fun x => !uniWs x) = true) :
    sw (joinWith ' ' ws) = ws := by
  rw [sw_joinWith (by decide)]
  have hmap : ws.map sw = ws.map (fun w => [w]) :=
    List.map_congr_left (fun w hw => sw_single (h w hw).1 (h w hw).2)
  rw [hmap, flatten_map_singleton]

theorem splitNl_ne_nil (t : Str) : splitNl t ≠ [] := by
  cases t with
  | nil => simp [splitNl]
  | cons c rest =>
    simp only [splitNl]
    split
    · simp
    · rcases hsp : splitNl rest with _ | ⟨s, ss⟩ <;> simp [hsp]

theorem joinWith_splitNl (t : Str) : joinWith '\n' (splitNl t) = t := by
  induction t with
  | nil => rfl
  | cons c rest ih =>
    simp only [splitNl]
    by_cases hc : c = '\n'
    · rw [if_pos hc]
      rcases hsp : splitNl rest with _ | ⟨s, ss⟩
      · exact absurd hsp (splitNl_ne_nil rest)
      · show ([] : Str) ++ '\n' :: joinWith '\n' (s :: ss) = c :: rest
        rw [List.nil_append, ← hsp, ih, hc]
    · rw [if_neg hc]
      rcases hsp : splitNl rest with _ | ⟨s, ss⟩
      · exact absurd hsp (splitNl_ne_nil rest)
      · cases ss with
        | nil =>
          show c :: s = c :: rest
          rw [hsp] at ih
          have ih' : s = rest := ih
          rw [ih']
        | cons s2 ss' =>
          show (c :: s) ++ '\n' :: joinWith '\n' (s2 :: ss') = c :: rest
          rw [hsp] at ih
          have ih' : s ++ '\n' :: joinWith '\n' (s2 :: ss') = rest := ih
          rw [List.cons_append, ih']

theorem sw_flatten_splitNl (t : Str) : ((splitNl t).map sw).flatten = sw t := by
  rw [← sw_joinWith (show uniWs '\n' = true by decide) (splitNl t), joinWith_splitNl]

theorem sw_stripCR (l : Str) : sw (stripCR l) = sw l := by
  unfold stripCR
  split
  · rename_i hlast
    have hne : l ≠ [] := by
      rintro rfl
      simp at hlast
    have hgl : l.getLast hne = '\r' := by
      rw [List.getLast?_eq_getLast l hne] at hlast
      exact Option.some.inj hlast
    have hl : l.dropLast ++ ['\r'] = l := by
      rw [← hgl]
      exact List.dropLast_append_getLast hne
    conv_rhs => rw [← hl]
    rw [show (['\r'] : Str) = '\r' :: [] from rfl,
      sw_append_ws (show uniWs '\r' = true by decide) l.dropLast.length l.dropLast [] (Nat.le_refl _),
      sw_nil, List.append_nil]
  · rfl

theorem sw_flatten_rustLines (t : Str) : ((rustLines t).map sw).flatten = sw t := by
  have hmap : ∀ ls : List Str, ((ls.map stripCR).map sw).flatten = (ls.map sw).flatten := by
    intro ls
    rw [List.map_map]
    congr 1
    exact List.map_congr_left (fun l _ => sw_stripCR l)
  unfold rustLines
  simp only []
  split
  · rename_i hlast
    rw [hmap]
    have hne : splitNl t ≠ [] := splitNl_ne_nil t
    have hgl : (splitNl t).getLast hne = [] := by
      rw [List.getLast?_eq_getLast _ hne] at hlast
      exact Option.some.inj hlast
    have hl : (splitNl t).dropLast ++ [[]] = splitNl t := by
      rw [← hgl]
      exact List.dropLast_append_getLast hne
    have hflat : ((splitNl t).map sw).flatten = (((splitNl t).dropLast).map sw).flatten := by
      conv_lhs => rw [← hl]
      rw [List.map_append, List.flatten_append]
      simp [sw_nil]
    rw [← hflat, sw_flatten_splitNl]
  · rw [hmap, sw_flatten_splitNl]

end Tsundoku

namespace Tsundoku

/-! ### Helper lemmas: the chunking loop -/

theorem utf8Len_cons (c : Char) (s : Str) : utf8Len (c :: s) = c.utf8Size + utf8Len s := by
  simp [utf8Len]

theorem joinWith_concat (sep : Char) (xs : List Str) (u : Str) :
    joinWith sep (xs ++ [u]) = if xs = [] then u else joinWith sep xs ++ sep :: u := by
  induction xs with
  | nil => simp [joinWith]
  | cons x xs' ih =>
    cases xs' with
    | nil => simp [joinWith]
    | cons y ys =>
      show x ++ sep :: joinWith sep ((y :: ys) ++ [u]) = _
      rw [ih]
      rw [if_neg (by simp), if_neg (by simp)]
      show x ++ sep :: (joinWith sep (y :: ys) ++ sep :: u)
          = (x ++ sep :: joinWith sep (y :: ys)) ++ sep :: u
      simp

theorem utf8Len_joinWith_concat {sep : Char} (hsep : sep.utf8Size = 1) (xs : List Str) (u : Str) :
    utf8Len (joinWith sep (xs ++ [u]))
      = utf8Len (joinWith sep xs) + (utf8Len u + if xs = [] then 0 else 1) := by
  rw [joinWith_concat]
  by_cases h : xs = []
  · subst h
    simp [joinWith, utf8Len]
  · rw [if_neg h, if_neg h, utf8Len_append, utf8Len_cons, hsep]
    omega

theorem joinWith_append (sep : Char) :
    ∀ (a b : List Str), a ≠ [] → b ≠ [] →
      joinWith sep (a ++ b) = joinWith sep a ++ sep :: joinWith sep b := by
  intro a
  induction a with
  | nil => intro b h; exact absurd rfl h
  | cons x a' ih =>
    intro b _ hb
    cases a' with
    | nil =>
      cases b with
      | nil => exact absurd rfl hb
      | cons y b' => rfl
    | cons z a'' =>
      show x ++ sep :: joinWith sep (z :: a'' ++ b)
          = (x ++ sep :: joinWith sep (z :: a'')) ++ sep :: joinWith sep b
      rw [ih b (by simp) hb]
      simp

theorem flatten_ne_nil {gs : List (List Str)} (hgs : gs ≠ []) (h : ∀ g ∈ gs, g ≠ []) :
    gs.flatten ≠ [] := by
  cases gs with
  | nil => exact absurd rfl hgs
  | cons g rest =>
    have hg : g ≠ [] := h g (List.mem_cons_self g rest)
    simp only [List.flatten_cons]
    intro hh
    exact hg (List.append_eq_nil.mp hh).1

theorem joinWith_map_joinWith (sep : Char) :
    ∀ gs : List (List Str), (∀ g ∈ gs, g ≠ []) →
      joinWith sep (gs.map (joinWith sep)) = joinWith sep gs.flatten := by
  intro gs
  induction gs with
  | nil => intro _; rfl
  | cons g gs' ih =>
    intro h
    cases gs' with
    | nil =>
      show joinWith sep [joinWith sep g] = joinWith sep ([g].flatten)
      have hflat : ([g] : List (List Str)).flatten = g := by simp
      rw [hflat]
      rfl
    | cons g2 rest =>
      have hne : (g2 :: rest).flatten ≠ [] :=
        flatten_ne_nil (by simp) (fun g' hg' => h g' (List.mem_cons_of_mem _ hg'))
      have hg : g ≠ [] := h g (List.mem_cons_self _ _)
      show joinWith sep (joinWith sep g :: (g2 :: rest).map (joinWith sep))
          = joinWith sep ((g :: g2 :: rest).flatten)
      have hl : joinWith sep (joinWith sep g :: (g2 :: rest).map (joinWith sep))
          = joinWith sep g ++ sep :: joinWith sep ((g2 :: rest).map (joinWith sep)) := rfl
      rw [hl, ih (fun g' hg' => h g' (List.mem_cons_of_mem _ hg'))]
      rw [show (g :: g2 :: rest).flatten = g ++ (g2 :: rest).flatten by simp]
      rw [joinWith_append sep g _ hg hne]

theorem flatten_sw_groups {sep : Char} (hsep : uniWs sep = true) :
    ∀ gs : List (List Str),
      ((gs.map (joinWith sep)).map sw).flatten = ((gs.flatten).map sw).flatten := by
  intro gs
  induction gs with
  | nil => rfl
  | cons g gs' ih =>
    simp only [List.map_cons, List.flatten_cons, List.map_append, List.flatten_append]
    rw [sw_joinWith hsep, ih]


end Tsundoku

namespace Tsundoku

theorem chunkLoop_cons (sep : Char) (cs : Nat) (u : Str) (rest cur : List Str)
    (size : Nat) (acc : List Str) :
    chunkLoop sep cs (u :: rest) cur size acc =
      if cs < size + (utf8Len u + (if cur = [] then 0 else 1)) ∧ cur ≠ [] then
        chunkLoop sep cs rest [u] (utf8Len u) (acc ++ [joinWith sep cur])
      else
        chunkLoop sep cs rest (cur ++ [u])
          (size + (utf8Len u + (if cur = [] then 0 else 1))) acc := rfl

theorem chunkLoop_groups (sep : Char) (cs : Nat) :
    ∀ (us cur : List Str) (size : Nat) (acc : List Str),
      ∃ gs : List (List Str),
        chunkLoop sep cs us cur size acc = acc ++ gs.map (joinWith sep) ∧
        gs.flatten = cur ++ us ∧ ∀ g ∈ gs, g ≠ [] := by
  intro us
  induction us with
  | nil =>
    intro cur size acc
    by_cases hcur : cur = []
    · subst hcur
      exact ⟨[], by simp [chunkLoop], rfl, by simp⟩
    · refine ⟨[cur], ?_, by simp, by simp [hcur]⟩
      simp [chunkLoop, hcur]
  | cons u rest ih =>
    intro cur size acc
    rw [chunkLoop_cons]
    by_cases hcond : cs < size + (utf8Len u + (if cur = [] then 0 else 1)) ∧ cur ≠ []
    · rw [if_pos hcond]
      obtain ⟨gs, h1, h2, h3⟩ := ih [u] (utf8Len u) (acc ++ [joinWith sep cur])
      refine ⟨cur :: gs, ?_, by simp [h2], ?_⟩
      · rw [h1]
        simp
      · intro g hg
        rcases List.mem_cons.mp hg with rfl | hg
        · exact hcond.2
        · exact h3 g hg
    · rw [if_neg hcond]
      obtain ⟨gs, h1, h2, h3⟩ :=
        ih (cur ++ [u]) (size + (utf8Len u + if cur = [] then 0 else 1)) acc
      refine ⟨gs, h1, ?_, h3⟩
      rw [h2]
      simp

theorem chunkLoop_size (sep : Char) (cs : Nat) (hsep : sep.utf8Size = 1) (U : List Str) :
    ∀ (us cur : List Str) (size : Nat) (acc : List Str),
      size = utf8Len (joinWith sep cur) →
      (cur ≠ [] → utf8Len (joinWith sep cur) ≤ cs ∨ ∃ u, cur = [u] ∧ u ∈ U) →
      (∀ u ∈ us, u ∈ U) →
      (∀ ch ∈ acc, utf8Len ch ≤ cs ∨ ch ∈ U) →
      ∀ ch ∈ chunkLoop sep cs us cur size acc, utf8Len ch ≤ cs ∨ ch ∈ U := by
  intro us
  induction us with
  | nil =>
    intro cur size acc hsize hinv hus hacc ch hch
    by_cases hcur : cur = []
    · subst hcur
      rw [show chunkLoop sep cs [] [] size acc = acc by simp [chunkLoop]] at hch
      exact hacc ch hch
    · rw [show chunkLoop sep cs [] cur size acc = acc ++ [joinWith sep cur] by
        simp [chunkLoop, hcur]] at hch
      rcases List.mem_append.mp hch with hch | hch
      · exact hacc ch hch
      · have hcheq : ch = joinWith sep cur := by simpa using hch
        subst hcheq
        rcases hinv hcur with hle | ⟨u, hcu, hu⟩
        · exact Or.inl hle
        · rw [hcu]
          exact Or.inr (by simpa [joinWith] using hu)
  | cons u rest ih =>
    intro cur size acc hsize hinv hus hacc ch hch
    rw [chunkLoop_cons] at hch
    by_cases hcond : cs < size + (utf8Len u + (if cur = [] then 0 else 1)) ∧ cur ≠ []
    · rw [if_pos hcond] at hch
      refine ih [u] (utf8Len u) (acc ++ [joinWith sep cur]) rfl ?_ ?_ ?_ ch hch
      · intro _
        exact Or.inr ⟨u, rfl, hus u (List.mem_cons_self u rest)⟩
      · exact fun v hv => hus v (List.mem_cons_of_mem u hv)
      · intro c hc
        rcases List.mem_append.mp hc with hc | hc
        · exact hacc c hc
        · have hceq : c = joinWith sep cur := by simpa using hc
          subst hceq
          rcases hinv hcond.2 with hle | ⟨v, hcv, hv⟩
          · exact Or.inl hle
          · rw [hcv]
            exact Or.inr (by simpa [joinWith] using hv)
    · rw [if_neg hcond] at hch
      refine ih (cur ++ [u]) (size + (utf8Len u + if cur = [] then 0 else 1)) acc ?_ ?_ ?_ hacc ch hch
      · rw [utf8Len_joinWith_concat hsep, hsize]
      · intro _
        by_cases hcur : cur = []
        · subst hcur
          refine Or.inr ⟨u, by simp, hus u (List.mem_cons_self u rest)⟩
        · have hle : size + (utf8Len u + (if cur = [] then 0 else 1)) ≤ cs := by
            rcases Nat.lt_or_ge cs (size + (utf8Len u + (if cur = [] then 0 else 1))) with hlt | hge
            · exact absurd ⟨hlt, hcur⟩ hcond
            · exact hge
          refine Or.inl ?_
          rw [utf8Len_joinWith_concat hsep, ← hsize]
          exact hle
      · exact fun v hv => hus v (List.mem_cons_of_mem u hv)

end Tsundoku

namespace Tsundoku

theorem flatten_map_flatten (f : Str → List Str) :
    ∀ L : List (List Str),
      ((L.flatten).map f).flatten = (L.map (fun x => (x.map f).flatten)).flatten := by
  intro L
  induction L with
  | nil => rfl
  | cons x xs ih =>
    simp only [List.flatten_cons, List.map_append, List.flatten_append, List.map_cons, ih]

theorem charLen_le_utf8Len (s : Str) : s.length ≤ utf8Len s := by
  induction s with
  | nil => simp [utf8Len]
  | cons c rest ih =>
    rw [utf8Len_cons, List.length_cons]
    have := Char.utf8Size_pos c
    omega

theorem line_chunks_size (t : Str) (cs : Nat) :
    ∀ ch ∈ chunkLoop '\n' cs (rustLines t) [] 0 [], utf8Len ch ≤ cs ∨ ch ∈ rustLines t :=
  chunkLoop_size '\n' cs (by decide) (rustLines t) (rustLines t) [] 0 [] rfl
    (fun h => absurd rfl h) (fun _ hu => hu) (fun c hc => absurd hc (List.not_mem_nil c))

theorem line_chunks_join (t : Str) (cs : Nat) :
    joinWith '\n' (chunkLoop '\n' cs (rustLines t) [] 0 []) = joinWith '\n' (rustLines t) := by
  obtain ⟨gs, h1, h2, h3⟩ := chunkLoop_groups '\n' cs (rustLines t) [] 0 []
  rw [List.nil_append] at h2
  rw [h1, List.nil_append, joinWith_map_joinWith '\n' gs h3, h2]

theorem line_chunks_tokens (t : Str) (cs : Nat) :
    ((chunkLoop '\n' cs (rustLines t) [] 0 []).map sw).flatten = sw t := by
  obtain ⟨gs, h1, h2, h3⟩ := chunkLoop_groups '\n' cs (rustLines t) [] 0 []
  rw [List.nil_append] at h2
  rw [h1, List.nil_append, flatten_sw_groups (by decide) gs, h2, sw_flatten_rustLines]

theorem word_chunks_size (ch : Str) (cs : Nat) :
    ∀ c ∈ chunkLoop ' ' cs (sw ch) [] 0 [], utf8Len c ≤ cs ∨ c ∈ sw ch :=
  chunkLoop_size ' ' cs (by decide) (sw ch) (sw ch) [] 0 [] rfl
    (fun h => absurd rfl h) (fun _ hu => hu) (fun c hc => absurd hc (List.not_mem_nil c))

theorem word_chunks_tokens (ch : Str) (cs : Nat) :
    ((chunkLoop ' ' cs (sw ch) [] 0 []).map sw).flatten = sw ch := by
  obtain ⟨gs, h1, h2, h3⟩ := chunkLoop_groups ' ' cs (sw ch) [] 0 []
  rw [List.nil_append] at h2
  rw [h1, List.nil_append]
  have hwords : ∀ g ∈ gs, sw (joinWith ' ' g) = g := by
    intro g hg
    refine sw_joinWith_words ?_
    intro w hw
    have hwmem : w ∈ sw ch := by
      rw [← h2]
      exact List.mem_flatten.mpr ⟨g, hg, hw⟩
    exact sw_mem ch.length ch (Nat.le_refl _) w hwmem
  rw [List.map_map]
  rw [show gs.map (sw ∘ joinWith ' ') = gs.map id from
    List.map_congr_left (fun g hg => hwords g hg)]
  rw [List.map_id, h2]

theorem split_text_into_chunks_eq (cs : Nat) (t : Str) :
    split_text_into_chunks cs t
      = ((chunkLoop '\n' cs (rustLines t) [] 0 []).map
          (fun ch => if utf8Len ch ≤ cs then [ch]
                     else chunkLoop ' ' cs (sw ch) [] 0 [])).flatten := rfl

theorem final_chunks_size (t : Str) (cs : Nat) :
    ∀ c ∈ split_text_into_chunks cs t, utf8Len c ≤ cs ∨ c ∈ sw t := by
  intro c hc
  rw [split_text_into_chunks_eq] at hc
  obtain ⟨l, hl, hcl⟩ := List.mem_flatten.mp hc
  obtain ⟨ch, hch, hfl⟩ := List.mem_map.mp hl
  by_cases hsize : utf8Len ch ≤ cs
  · rw [if_pos hsize] at hfl
    rw [← hfl] at hcl
    have hceq : c = ch := by simpa using hcl
    subst hceq
    exact Or.inl hsize
  · rw [if_neg hsize] at hfl
    rw [← hfl] at hcl
    rcases word_chunks_size ch cs c hcl with h | h
    · exact Or.inl h
    · refine Or.inr ?_
      rw [← line_chunks_tokens t cs]
      exact List.mem_flatten.mpr ⟨sw ch, List.mem_map.mpr ⟨ch, hch, rfl⟩, h⟩

theorem final_chunks_tokens (t : Str) (cs : Nat) :
    ((split_text_into_chunks cs t).map sw).flatten = sw t := by
  rw [split_text_into_chunks_eq, flatten_map_flatten sw, List.map_map]
  have hper : ∀ ch ∈ chunkLoop '\n' cs (rustLines t) [] 0 [],
      ((fun x => (x.map sw).flatten) ∘
        (fun ch => if utf8Len ch ≤ cs then [ch] else chunkLoop ' ' cs (sw ch) [] 0 [])) ch
        = sw ch := by
    intro ch hch
    show ((if utf8Len ch ≤ cs then [ch] else chunkLoop ' ' cs (sw ch) [] 0 []).map sw).flatten
        = sw ch
    by_cases hsize : utf8Len ch ≤ cs
    · rw [if_pos hsize]
      simp
    · rw [if_neg hsize]
      exact word_chunks_tokens ch cs
  rw [List.map_congr_left hper, line_chunks_tokens]

/-- Claim C9 (amended): every chunk produced by
`Translator::split_text_into_chunks` is within the size limit or is a
single whitespace-delimited token of the input that itself exceeds the
limit, and chunking preserves the input's whitespace-delimited token
sequence exactly; likewise every chunk of `split_text_into_line_chunks`
is within the limit or is a single input line, and rejoining its chunks
with newlines reproduces the newline-joined line sequence.  The claim's
"no characters are dropped" fails: whitespace is normalised (a run of
whitespace inside an oversized line collapses to a single space, and a
trailing newline is not restored) — see the counterexample. -/
theorem c9_chunk_bound_and_token_preservation (cs : Nat) (t : Str) :
    (∀ c ∈ split_text_into_chunks cs t,
        c.length ≤ cs ∨ (cs < c.length ∧ c ∈ sw t)) ∧
    ((split_text_into_chunks cs t).map sw).flatten = sw t ∧
    (∀ c ∈ split_text_into_line_chunks t cs,
        c.length ≤ cs ∨ (cs < c.length ∧ c ∈ rustLines t)) ∧
    joinWith '\n' (split_text_into_line_chunks t cs) = joinWith '\n' (rustLines t) := by
  refine ⟨?_, final_chunks_tokens t cs, ?_, line_chunks_join t cs⟩
  · intro c hc
    by_cases hlen : c.length ≤ cs
    · exact Or.inl hlen
    · refine Or.inr ⟨Nat.lt_of_not_le hlen, ?_⟩
      rcases final_chunks_size t cs c hc with h | h
      · exact absurd (Nat.le_trans (charLen_le_utf8Len c) h) hlen
      · exact h
  · intro c hc
    by_cases hlen : c.length ≤ cs
    · exact Or.inl hlen
    · refine Or.inr ⟨Nat.lt_of_not_le hlen, ?_⟩
      rcases line_chunks_size t cs c hc with h | h
      · exact absurd (Nat.le_trans (charLen_le_utf8Len c) h) hlen
      · exact h

/-- Claim C9 (counterexample): chunking `"aa  bb cc"` with limit 3 yields
`["aa", "bb", "cc"]` — the double space is collapsed by the whitespace
re-split, so no choice of rejoining separator (single space, newline, or
double space) reconstructs the input: characters are dropped. -/
theorem c9_counterexample :
    split_text_into_chunks 3 "aa  bb cc".data = ["aa".data, "bb".data, "cc".data] ∧
    joinWith ' ' (split_text_into_chunks 3 "aa  bb cc".data) ≠ "aa  bb cc".data ∧
    joinWith '\n' (split_text_into_chunks 3 "aa  bb cc".data) ≠ "aa  bb cc".data ∧
    joinAll "  ".data (split_text_into_chunks 3 "aa  bb cc".data) ≠ "aa  bb cc".data := by
  refine ⟨by decide, by decide, by decide, by decide⟩

end Tsundoku
